import Mathlib

/-!
Shallow embedding of the editor interaction engine of the typing-practice
application (src/source/Component/Screen/Editor/hooks/useEditorEvents.ts and
the utilities module src/unnamed/part_000).

Strings are modelled as `List Char`.  The input surface (a content-editable
div whose children are text nodes) is modelled as `List (List Char)`: the
rendered contents of the child text nodes in document order.  A DOM selection
collapsed to a caret is modelled by `Sel`: either anchored on the container
element itself, or on the k-th child text node at a character offset.
-/

/-- Character class of the JavaScript regex `\s` and of `String.prototype.trim`:
ASCII whitespace plus the Unicode space separators recognised by JS. -/
def wsChars : List Char :=
  [' ', '\t', '\n', '\x0b', '\x0c', '\r', '\u00A0', '\u1680',
   '\u2000', '\u2001', '\u2002', '\u2003', '\u2004', '\u2005', '\u2006',
   '\u2007', '\u2008', '\u2009', '\u200A', '\u2028', '\u2029', '\u202F',
   '\u205F', '\u3000', '\uFEFF']

def isWS (c : Char) : Bool := wsChars.contains c

/-- `.replace(/ +/g, ' ')` of the paste handler: every maximal run of ASCII
spaces becomes a single space.  A space whose successor is also a space is
dropped; the final space of each run survives. -/
def collapseSpaces : List Char → List Char
  | [] => []
  | c :: rest =>
    if c = ' ' ∧ rest.head? = some ' ' then collapseSpaces rest
    else c :: collapseSpaces rest

/-- `.replace(/\n{1,}/g, '\n\n')` of the paste handler: every maximal run of
one or more newlines becomes exactly two newlines. -/
def collapseNewlines : List Char → List Char
  | [] => []
  | c :: rest =>
    if c = '\n' then
      if rest.head? = some '\n' then collapseNewlines rest
      else '\n' :: '\n' :: collapseNewlines rest
    else c :: collapseNewlines rest

/-- `.replace(/\t/g, '')` of the paste handler. -/
def stripTabs (l : List Char) : List Char := l.filter (fun c => !(c = '\t'))

/-- `.replace(/\r/g, '')` of the paste handler. -/
def stripCRs (l : List Char) : List Char := l.filter (fun c => !(c = '\r'))

/-- Left half of `String.prototype.trim`: drop leading whitespace. -/
def trimLeft (l : List Char) : List Char := l.dropWhile isWS

/-- Right half of `String.prototype.trim`: drop the maximal all-whitespace
suffix (structural formulation). -/
def trimRight : List Char → List Char
  | [] => []
  | c :: rest =>
    let r := trimRight rest
    if r = [] ∧ isWS c then [] else c :: r

/-- `String.prototype.trim`: whitespace removed from both ends. -/
def trim (l : List Char) : List Char := trimRight (trimLeft l)

/-- The paste-normalization pipeline of `onPaste` (useEditorEvents.ts lines
66-72), in source order: collapse space runs, delete tabs, delete carriage
returns, replace newline runs, trim both ends. -/
def normalizePaste (s : List Char) : List Char :=
  trim (collapseNewlines (stripCRs (stripTabs (collapseSpaces s))))

/-- The `onPaste` branch taken when no TargetText exists (useEditorEvents.ts
lines 56-78): the clipboard text is normalized and, when the result is
non-empty, becomes the new TargetText (`some`); an empty result is discarded
(`none`). -/
def onPasteNoTarget (clip : List Char) : Option (List Char) :=
  let pastedData := normalizePaste clip
  if pastedData.length < 1 then none else some pastedData

/-- Index of the last occurrence of `c` in `l`, if any (helper for
`String.prototype.lastIndexOf`). -/
def lastIdx (c : Char) : List Char → Option Nat
  | [] => none
  | a :: rest =>
    match lastIdx c rest with
    | some i => some (i + 1)
    | none => if a = c then some 0 else none

/-- `getPreviousSpace` (utils, lines 53-57): `text.lastIndexOf(' ', offset)`
searches positions `≤ offset`; the function returns that index plus one, or 0
when there is no space at or before `offset`. -/
def getPreviousSpace (text : List Char) (offset : Nat) : Nat :=
  if text = [] then 0
  else
    match lastIdx ' ' (text.take (offset + 1)) with
    | none => 0
    | some i => i + 1

/-- Index of the first occurrence of `c` in `l` at position `≥ k`, if any
(helper for `String.prototype.indexOf` with a fromIndex). -/
def firstIdxFrom (c : Char) (l : List Char) (k : Nat) : Option Nat :=
  match (l.drop k).findIdx? (fun d => d = c) with
  | some j => some (k + j)
  | none => none

/-- `getNextSpace` (utils, lines 59-63): index of the first space at or after
`offset`, or `text.length` when there is none. -/
def getNextSpace (text : List Char) (offset : Nat) : Nat :=
  if text = [] then 0
  else
    match firstIdxFrom ' ' text offset with
    | none => text.length
    | some i => i

/-- Loop of `getTextPosition` (useEditorEvents.ts lines 206-220): the tree
walker visits the text nodes in order; `cur` counts how many walker steps
remain until `currentNode` is reached (`cur ≥` number of nodes models a
`currentNode` that is not among the root's text descendants). -/
def gtpLoop : List (List Char) → Nat → Nat → Nat → Nat
  | [], _, _, position => position
  | n :: rest, cur, offset, position =>
    if cur = 0 then position + offset
    else gtpLoop rest (cur - 1) offset (position + n.length)

/-- `getTextPosition(editor, currentNode, offset)`: nodes are the root's text
descendants in document order, `cur` identifies `currentNode` by its position
among them. -/
def getTextPosition (nodes : List (List Char)) (cur : Nat) (offset : Nat) : Nat :=
  gtpLoop nodes cur offset 0

/-- Total character count of the root's text descendants. -/
def totalTextLength (nodes : List (List Char)) : Nat :=
  (nodes.map List.length).sum

theorem gtpLoop_not_found (nodes : List (List Char)) :
    ∀ cur offset position, nodes.length ≤ cur →
      gtpLoop nodes cur offset position = position + totalTextLength nodes := by
  induction nodes with
  | nil => intro cur offset position _; simp [gtpLoop, totalTextLength]
  | cons n rest ih =>
    intro cur offset position h
    match cur with
    | 0 => simp at h
    | cur' + 1 =>
      simp only [List.length_cons, Nat.add_le_add_iff_right] at h
      simp only [gtpLoop, Nat.add_one_sub_one, if_neg (Nat.succ_ne_zero cur')]
      rw [ih cur' offset _ h]
      simp [totalTextLength, Nat.add_assoc]

theorem lastIdx_spec (c : Char) (l : List Char) :
    ∀ i, lastIdx c l = some i → l.get? i = some c := by
  induction l with
  | nil => intro i h; simp [lastIdx] at h
  | cons a rest ih =>
    intro i h
    simp only [lastIdx] at h
    cases hr : lastIdx c rest with
    | some j =>
      rw [hr] at h
      cases h
      simpa using ih j hr
    | none =>
      rw [hr] at h
      by_cases hac : a = c
      · rw [if_pos hac] at h
        cases h
        simp [hac]
      · rw [if_neg hac] at h
        cases h

/-- C1 counterexample input: a root whose single text descendant is `"ab"`,
and a `currentNode` that is not among the text descendants. -/
theorem C1_counterexample :
    getTextPosition [['a', 'b']] 1 0 = 2 ∧ (2 : Nat) ≠ 0 := by
  constructor
  · rfl
  · decide

/-- C1 (amended): when `currentNode` is not found among the root's text
descendants, `getTextPosition` returns the accumulated total length of all of
the root's text content (so 0 exactly when the root holds no text), not the
constant 0 claimed by the spec. -/
theorem C1_not_found_returns_total_length
    (nodes : List (List Char)) (cur offset : Nat) (h : nodes.length ≤ cur) :
    getTextPosition nodes cur offset = totalTextLength nodes := by
  unfold getTextPosition
  rw [gtpLoop_not_found nodes cur offset 0 h]
  simp

theorem C1_witness :
    getTextPosition [['a', 'b']] 1 5 = totalTextLength [['a', 'b']] :=
  C1_not_found_returns_total_length [['a', 'b']] 1 5 (by decide)

theorem take_get?_eq {α : Type} {l : List α} {n i : Nat} {a : α}
    (h : (l.take n).get? i = some a) : l.get? i = some a := by
  obtain ⟨hi, hv⟩ := List.get?_eq_some.mp h
  have hin : i < n := by
    rw [List.length_take] at hi
    exact lt_of_lt_of_le hi (min_le_left _ _)
  rw [List.get?_take hin] at h
  exact h

/-- C6: for every text and every offset, composing the two word-boundary
functions is well-defined (both are total) and
`getPreviousSpace t (getNextSpace t k)` is either 0 or a position placed
immediately after a space character of `t`. -/
theorem C6_boundary_composition (t : List Char) (k : Nat) :
    getPreviousSpace t (getNextSpace t k) = 0 ∨
      (0 < getPreviousSpace t (getNextSpace t k) ∧
        t.get? (getPreviousSpace t (getNextSpace t k) - 1) = some ' ') := by
  unfold getPreviousSpace
  by_cases ht : t = []
  · left; simp [ht]
  · rw [if_neg ht]
    cases hl : lastIdx ' ' (t.take (getNextSpace t k + 1)) with
    | none => left; rfl
    | some i =>
      right
      constructor
      · exact Nat.succ_pos i
      · have hget := lastIdx_spec ' ' (t.take (getNextSpace t k + 1)) i hl
        simp only [Nat.add_sub_cancel]
        exact take_get?_eq hget

theorem collapseSpaces_cons_ne (c : Char) (l : List Char) (hc : c ≠ ' ') :
    collapseSpaces (c :: l) = c :: collapseSpaces l := by
  simp [collapseSpaces, hc]

theorem collapseSpaces_replicate :
    ∀ (n : Nat) (l : List Char), 1 ≤ n → l.head? ≠ some ' ' →
      collapseSpaces (List.replicate n ' ' ++ l) = ' ' :: collapseSpaces l := by
  intro n
  induction n with
  | zero => intro l h; omega
  | succ m ih =>
    intro l _ hl
    match m with
    | 0 =>
      simp only [Nat.zero_add, List.replicate_one, List.singleton_append]
      rw [collapseSpaces]
      rw [if_neg (by simp [hl])]
    | m' + 1 =>
      have hrep : List.replicate (m' + 1 + 1) ' ' ++ l
          = ' ' :: (List.replicate (m' + 1) ' ' ++ l) := by
        simp [List.replicate_succ]
      rw [hrep, collapseSpaces]
      rw [if_pos ?_]
      · exact ih l (by omega) hl
      · refine ⟨rfl, ?_⟩
        simp [List.replicate_succ]

theorem collapseNewlines_cons_ne (c : Char) (l : List Char) (hc : c ≠ '\n') :
    collapseNewlines (c :: l) = c :: collapseNewlines l := by
  simp [collapseNewlines, hc]

theorem collapseNewlines_replicate :
    ∀ (n : Nat) (l : List Char), 1 ≤ n → l.head? ≠ some '\n' →
      collapseNewlines (List.replicate n '\n' ++ l)
        = '\n' :: '\n' :: collapseNewlines l := by
  intro n
  induction n with
  | zero => intro l h; omega
  | succ m ih =>
    intro l _ hl
    match m with
    | 0 =>
      simp only [Nat.zero_add, List.replicate_one, List.singleton_append]
      rw [collapseNewlines]
      rw [if_pos rfl, if_neg (by simp [hl])]
    | m' + 1 =>
      have hrep : List.replicate (m' + 1 + 1) '\n' ++ l
          = '\n' :: (List.replicate (m' + 1) '\n' ++ l) := by
        simp [List.replicate_succ]
      rw [hrep, collapseNewlines]
      rw [if_pos rfl, if_pos ?_]
      · exact ih l (by omega) hl
      · simp [List.replicate_succ]

/-- C2 counterexample: pasting `"a\nb"` (a lone interior newline) while no
TargetText exists produces the TargetText `"a\n\nb"`, not `"a\nb"`: the code
replaces runs of one or more newlines, so a lone newline does not stay
single. -/
theorem C2_counterexample :
    onPasteNoTarget ("a\nb".toList) = some ("a\n\nb".toList) ∧
      "a\n\nb".toList ≠ "a\nb".toList := by
  constructor
  · rfl
  · decide

/-- C2 (amended): the paste handler (no TargetText present) normalizes the
clipboard text by collapsing each run of spaces to one space, deleting tabs
and carriage returns, collapsing each run of ONE or more consecutive newlines
to exactly two newlines (so a lone newline becomes a double newline as well),
and trimming whitespace from both ends; the result, if non-empty, becomes the
new TargetText, and an empty result is discarded. -/
theorem C2_paste_normalization :
    (∀ clip, normalizePaste clip ≠ [] → onPasteNoTarget clip = some (normalizePaste clip)) ∧
    (∀ clip, normalizePaste clip = [] → onPasteNoTarget clip = none) ∧
    (∀ (n : Nat) (l : List Char), 1 ≤ n → l.head? ≠ some ' ' →
      collapseSpaces (List.replicate n ' ' ++ l) = ' ' :: collapseSpaces l) ∧
    (∀ (c : Char) (l : List Char), c ≠ ' ' →
      collapseSpaces (c :: l) = c :: collapseSpaces l) ∧
    (∀ s, stripTabs s = s.filter (fun c => !(c = '\t'))) ∧
    (∀ s, stripCRs s = s.filter (fun c => !(c = '\r'))) ∧
    (∀ (n : Nat) (l : List Char), 1 ≤ n → l.head? ≠ some '\n' →
      collapseNewlines (List.replicate n '\n' ++ l) = '\n' :: '\n' :: collapseNewlines l) ∧
    (∀ (c : Char) (l : List Char), c ≠ '\n' →
      collapseNewlines (c :: l) = c :: collapseNewlines l) ∧
    normalizePaste ("Hello   world\n\n\n\nbye".toList) = "Hello world\n\nbye".toList := by
  refine ⟨?_, ?_, collapseSpaces_replicate, collapseSpaces_cons_ne, fun s => rfl,
    fun s => rfl, collapseNewlines_replicate, collapseNewlines_cons_ne, by rfl⟩
  · intro clip h
    unfold onPasteNoTarget
    rw [if_neg (by simpa [List.length_eq_zero] using h)]
  · intro clip h
    unfold onPasteNoTarget
    rw [if_pos (by simp [h])]

theorem C2_witness :
    collapseNewlines (List.replicate 3 '\n' ++ ['a']) = '\n' :: '\n' :: collapseNewlines ['a'] :=
  C2_paste_normalization.2.2.2.2.2.2.1 3 ['a'] (by decide) (by decide)

/-- Scan loop of `onKeyUp` (useEditorEvents.ts lines 158-180): walks the typed
text by index; a mismatch against the target at an index opens a run (or keeps
it open), a match closes the open run with that index as its exclusive end,
and a run still open when the text ends is closed at the text's length.
`target.head?`/`target.tail` at step `i` correspond to `contentToCopy[index]`
(possibly `undefined`, modelled as `none`). -/
def scanErrors : List Char → List Char → Nat → Option Nat → List (Nat × Nat)
  | [], _, i, st =>
    match st with
    | some s => [(s, i)]
    | none => []
  | c :: rest, target, i, st =>
    if target.head? = some c then
      match st with
      | some s => (s, i) :: scanErrors rest target.tail (i + 1) none
      | none => scanErrors rest target.tail (i + 1) none
    else
      match st with
      | some s => scanErrors rest target.tail (i + 1) (some s)
      | none => scanErrors rest target.tail (i + 1) (some i)

/-- The full error-run computation of `onKeyUp`: scan from index 0 with no
open run. -/
def computeErrors (typed target : List Char) : List (Nat × Nat) :=
  scanErrors typed target 0 none

theorem scan_all_match :
    ∀ (typed target : List Char) (i : Nat),
      (∀ j, j < typed.length → target.get? j = typed.get? j) →
      scanErrors typed target i none = [] := by
  intro typed
  induction typed with
  | nil => intro target i _; rfl
  | cons c rest ih =>
    intro target i h
    have h0 := h 0 (by simp)
    match target with
    | [] => simp at h0
    | d :: t' =>
      simp only [List.get?_cons_zero] at h0
      rw [scanErrors]
      rw [if_pos (by simpa using h0)]
      simp only [List.tail_cons]
      exact ih t' (i + 1) (fun j hj => by
        have := h (j + 1) (by simpa using Nat.succ_lt_succ hj)
        simpa using this)

theorem scan_all_mismatch :
    ∀ (typed target : List Char) (i s : Nat),
      (∀ j, j < typed.length → target.get? j ≠ typed.get? j) →
      scanErrors typed target i (some s) = [(s, i + typed.length)] := by
  intro typed
  induction typed with
  | nil => intro target i s _; simp [scanErrors]
  | cons c rest ih =>
    intro target i s h
    have h0 := h 0 (by simp)
    have hhd : ¬ target.head? = some c := by
      match target with
      | [] => simp
      | d :: t' => simpa using h0
    rw [scanErrors, if_neg hhd]
    rw [ih target.tail (i + 1) s (fun j hj => by
      have := h (j + 1) (by simpa using Nat.succ_lt_succ hj)
      match target with
      | [] => simpa using hj
      | d :: t' => simpa using this)]
    simp only [List.length_cons]
    have harith : i + 1 + rest.length = i + (rest.length + 1) := by omega
    rw [harith]

/-- C4: the error-run computation is a total function; on typed text matching
the target at every typed index it produces zero runs, and on non-empty typed
text mismatching the target at every index it produces exactly the single run
`[0, n)` where `n` is the typed length. -/
theorem C4_error_runs_total (typed target : List Char) :
    ((∀ j, j < typed.length → target.get? j = typed.get? j) →
        computeErrors typed target = []) ∧
    (typed ≠ [] →
      (∀ j, j < typed.length → target.get? j ≠ typed.get? j) →
        computeErrors typed target = [(0, typed.length)]) := by
  constructor
  · intro h
    exact scan_all_match typed target 0 h
  · intro hne h
    match typed with
    | c :: rest =>
      have h0 := h 0 (by simp)
      have hhd : ¬ target.head? = some c := by
        match target with
        | [] => simp
        | d :: t' => simpa using h0
      unfold computeErrors
      rw [scanErrors, if_neg hhd]
      rw [scan_all_mismatch rest target.tail 1 0 (fun j hj => by
        have := h (j + 1) (by simpa using Nat.succ_lt_succ hj)
        match target with
        | [] => simpa using hj
        | d :: t' => simpa using this)]
      simp [Nat.add_comm]

theorem C4_witness :
    computeErrors ("ab".toList) ("ab".toList) = [] ∧
      computeErrors ("xy".toList) ("ab".toList) = [(0, 2)] := by
  constructor
  · exact (C4_error_runs_total ("ab".toList) ("ab".toList)).1 (by decide)
  · exact (C4_error_runs_total ("xy".toList) ("ab".toList)).2 (by decide) (by decide)

/-- Mismatch at index `j` in the key-up scan: `j` addresses a typed character
(`letter` is defined) and the target character at `j` (possibly absent)
differs from it. -/
def mismAt (typed target : List Char) (j : Nat) : Prop :=
  j < typed.length ∧ ¬ target.get? j = typed.get? j

/-- Separation of consecutive error runs: the earlier run's exclusive end lies
strictly before the later run's start and is itself a matching index. -/
def runSep (typed target : List Char) (a b : Nat × Nat) : Prop :=
  a.2 < b.1 ∧ ¬ mismAt typed target a.2

theorem scan_inv :
    ∀ (n : Nat) (T C : List Char) (i : Nat) (st : Option Nat),
      i + n = T.length →
      (∀ s, st = some s → s < i ∧ (∀ j, s ≤ j → j < i → mismAt T C j) ∧
        (s = 0 ∨ ¬ mismAt T C (s - 1))) →
      (st = none → i = 0 ∨ ¬ mismAt T C (i - 1)) →
      ((∀ p ∈ scanErrors (T.drop i) (C.drop i) i st,
          p.1 < p.2 ∧ p.2 ≤ T.length ∧
          (∀ j, p.1 ≤ j → j < p.2 → mismAt T C j) ∧
          (p.1 = 0 ∨ ¬ mismAt T C (p.1 - 1)) ∧
          (p.2 = T.length ∨ ¬ mismAt T C p.2) ∧
          (∀ s, st = some s → s ≤ p.1) ∧ (st = none → i ≤ p.1)) ∧
        List.Chain' (runSep T C) (scanErrors (T.drop i) (C.drop i) i st)) := by
  intro n
  induction n with
  | zero =>
    intro T C i st hlen hsome hnone
    have hi : i = T.length := by omega
    have hdrop : T.drop i = [] := by rw [hi]; exact List.drop_length T
    rw [hdrop]
    cases st with
    | none => exact ⟨by intro p hp; simp [scanErrors] at hp, by simp [scanErrors]⟩
    | some s =>
      obtain ⟨hs1, hs2, hs3⟩ := hsome s rfl
      constructor
      · intro p hp
        simp only [scanErrors, List.mem_singleton] at hp
        subst hp
        refine ⟨hs1, by omega, ?_, hs3, Or.inl hi, ?_, ?_⟩
        · intro j h1 h2
          exact hs2 j h1 h2
        · intro s' h
          injection h with h
          omega
        · intro h; simp at h
      · simp [scanErrors]
  | succ m ih =>
    intro T C i st hlen hsome hnone
    have hiT : i < T.length := by omega
    have hcons : T.drop i = T[i] :: T.drop (i + 1) := List.drop_eq_getElem_cons hiT
    have hhd : (C.drop i).head? = C[i]? := List.head?_drop C i
    have htl : (C.drop i).tail = C.drop (i + 1) := List.tail_drop C i
    have hTi : T.get? i = some T[i] := by
      rw [List.get?_eq_getElem?]
      exact List.getElem?_eq_getElem hiT
    have hmiff : ¬ C[i]? = some T[i] ↔ mismAt T C i := by
      unfold mismAt
      rw [List.get?_eq_getElem?]
      constructor
      · intro h
        refine ⟨hiT, ?_⟩
        rw [hTi]
        exact h
      · intro h
        have := h.2
        rw [hTi] at this
        exact this
    rw [hcons]
    by_cases hm : C[i]? = some T[i]
    · -- the characters at index i match: any open run closes here
      have hnm : ¬ mismAt T C i := fun hmm => (hmiff.mpr hmm) hm
      cases st with
      | some s =>
        obtain ⟨hs1, hs2, hs3⟩ := hsome s rfl
        have IH := ih T C (i + 1) none (by omega)
          (by intro s' h; simp at h)
          (by intro _; right; simpa using hnm)
        obtain ⟨IH1, IH2⟩ := IH
        rw [scanErrors, if_pos (by rw [hhd]; exact hm), htl]
        constructor
        · intro p hp
          rcases List.mem_cons.mp hp with hp | hp
          · subst hp
            refine ⟨hs1, by omega, hs2, hs3, Or.inr hnm, ?_, ?_⟩
            · intro s' h
              injection h with h
              omega
            · intro h; simp at h
          · obtain ⟨f1, f2, f3, f4, f5, _, f7⟩ := IH1 p hp
            refine ⟨f1, f2, f3, f4, f5, ?_, ?_⟩
            · intro s' h
              injection h with h
              subst h
              have := f7 rfl
              omega
            · intro h; simp at h
        · rw [List.chain'_cons']
          constructor
          · intro y hy
            have hy' := List.mem_of_mem_head? hy
            obtain ⟨_, _, _, _, _, _, f7⟩ := IH1 y hy'
            exact ⟨by have := f7 rfl; omega, hnm⟩
          · exact IH2
      | none =>
        have IH := ih T C (i + 1) none (by omega)
          (by intro s' h; simp at h)
          (by intro _; right; simpa using hnm)
        obtain ⟨IH1, IH2⟩ := IH
        rw [scanErrors, if_pos (by rw [hhd]; exact hm), htl]
        constructor
        · intro p hp
          obtain ⟨f1, f2, f3, f4, f5, _, f7⟩ := IH1 p hp
          refine ⟨f1, f2, f3, f4, f5, ?_, ?_⟩
          · intro s' h; simp at h
          · intro _
            have := f7 rfl
            omega
        · exact IH2
    · -- the characters at index i mismatch: a run opens here or stays open
      have hmm : mismAt T C i := hmiff.mp hm
      cases st with
      | some s =>
        obtain ⟨hs1, hs2, hs3⟩ := hsome s rfl
        have IH := ih T C (i + 1) (some s) (by omega)
          (by intro s' h
              injection h with h
              subst h
              refine ⟨by omega, ?_, hs3⟩
              intro j h1 h2
              by_cases hji : j < i
              · exact hs2 j h1 hji
              · have : j = i := by omega
                subst this
                exact hmm)
          (by intro h; simp at h)
        obtain ⟨IH1, IH2⟩ := IH
        rw [scanErrors, if_neg (by rw [hhd]; exact hm), htl]
        constructor
        · intro p hp
          obtain ⟨f1, f2, f3, f4, f5, f6, _⟩ := IH1 p hp
          refine ⟨f1, f2, f3, f4, f5, ?_, ?_⟩
          · intro s' h
            exact f6 s' h
          · intro h; simp at h
        · exact IH2
      | none =>
        have IH := ih T C (i + 1) (some i) (by omega)
          (by intro s' h
              injection h with h
              subst h
              refine ⟨by omega, ?_, ?_⟩
              · intro j h1 h2
                have : j = i := by omega
                subst this
                exact hmm
              · exact hnone rfl)
          (by intro h; simp at h)
        obtain ⟨IH1, IH2⟩ := IH
        rw [scanErrors, if_neg (by rw [hhd]; exact hm), htl]
        constructor
        · intro p hp
          obtain ⟨f1, f2, f3, f4, f5, f6, _⟩ := IH1 p hp
          refine ⟨f1, f2, f3, f4, f5, ?_, ?_⟩
          · intro s' h; simp at h
          · intro _
            have := f6 i rfl
            omega
        · exact IH2

/-- C5: for every typed/target pair the key-up scan produces half-open
intervals `[start, end)` with `start < end ≤ typed length`, listed in strictly
increasing order and pairwise non-overlapping (consecutive runs separated by
the earlier run's end, which is a matching index strictly before the next
start), and each run is a maximal contiguous block of mismatching indices. -/
theorem C5_error_run_invariants (typed target : List Char) :
    (∀ p ∈ computeErrors typed target,
        p.1 < p.2 ∧ p.2 ≤ typed.length ∧
        (∀ j, p.1 ≤ j → j < p.2 → mismAt typed target j) ∧
        (p.1 = 0 ∨ ¬ mismAt typed target (p.1 - 1)) ∧
        (p.2 = typed.length ∨ ¬ mismAt typed target p.2)) ∧
      List.Chain' (runSep typed target) (computeErrors typed target) := by
  have h := scan_inv typed.length typed target 0 none (by simp)
    (by intro s hs; simp at hs) (by intro _; left; rfl)
  rw [List.drop_zero, List.drop_zero] at h
  obtain ⟨h1, h2⟩ := h
  exact ⟨fun p hp => by
    obtain ⟨f1, f2, f3, f4, f5, _, _⟩ := h1 p hp
    exact ⟨f1, f2, f3, f4, f5⟩, h2⟩

theorem C5_witness :
    (∀ p ∈ computeErrors ['a', 'b'] ['a', 'c'],
        p.1 < p.2 ∧ p.2 ≤ (['a', 'b'] : List Char).length ∧
        (∀ j, p.1 ≤ j → j < p.2 → mismAt ['a', 'b'] ['a', 'c'] j) ∧
        (p.1 = 0 ∨ ¬ mismAt ['a', 'b'] ['a', 'c'] (p.1 - 1)) ∧
        (p.2 = (['a', 'b'] : List Char).length ∨ ¬ mismAt ['a', 'b'] ['a', 'c'] p.2)) ∧
      List.Chain' (runSep ['a', 'b'] ['a', 'c']) (computeErrors ['a', 'b'] ['a', 'c']) :=
  C5_error_run_invariants ['a', 'b'] ['a', 'c']

/-- A DOM selection collapsed to a caret inside the input surface:
`container = true` models `range.startContainer === writer` (the offset is
then whatever `range.startOffset` holds), otherwise the caret sits in child
text node `nodeIdx` at character offset `offset`. -/
structure Sel where
  container : Bool
  nodeIdx : Nat
  offset : Nat
deriving DecidableEq

/-- `range.startContainer === writer ? writer.lastChild : range.startContainer`:
resolves the addressed node; `none` when the writer has no children (a null
`lastChild`). -/
def resolveNode (w : List (List Char)) (sel : Sel) : Option Nat :=
  if sel.container then
    if w.length = 0 then none else some (w.length - 1)
  else some sel.nodeIdx

/-- `String.prototype.slice(a, b)` for the index ranges arising in this code
(non-negative clamped indices; an inverted range yields the empty string). -/
def jsSlice (l : List Char) (a b : Nat) : List Char := (l.take b).drop a

/-- One-argument `String.prototype.slice(a)` with a possibly negative start: a
negative `a` counts from the end of the string (`max (length + a) 0`), a
non-negative `a` is an ordinary clamped drop. -/
def jsSliceFrom (l : List Char) (a : Int) : List Char :=
  if a < 0 then l.drop (max ((l.length : Int) + a) 0).toNat else l.drop a.toNat

/-- Loop of `handleAutocorrect` that locates the child text node spanning
`start` (useEditorEvents.ts lines 304-330): walk the children accumulating
lengths until the first node whose accumulated end reaches `start`; returns
its child index and the accumulated offset before it. -/
def findSpliceNodeAux : List (List Char) → Nat → Nat → Nat → Option (Nat × Nat)
  | [], _, _, _ => none
  | node :: rest, start, cum, idx =>
    if start ≤ cum + node.length then some (idx, cum)
    else findSpliceNodeAux rest start (cum + node.length) (idx + 1)

/-- Result of a correction engine call: the returned boolean, the writer's
children afterwards, and the new caret (node index, character offset) when the
engine replaced the selection. -/
structure ACResult where
  handled : Bool
  nodes : List (List Char)
  caret : Option (Nat × Nat)
deriving DecidableEq

/-- `handleAutocorrect(e, contentToCopy, writer, addSpace)` (useEditorEvents.ts
lines 276-336).  `key` is `e.key` as a character list.  All children of the
writer are text nodes, so `node.textContent === null` never holds and the
splice loop modifies the first node whose accumulated end reaches `start`.
The splice loop guarantees `cum ≤ start` (every earlier node ends strictly
before `start`), so the natural subtractions `start - cum` agree with the
JavaScript arithmetic; `end - currentOffset` can however be negative (the
caret's linear position may exceed the target's length), and
`textContent.slice(end - currentOffset)` then slices from the end of the
string, modelled by `jsSliceFrom` over `Int`. -/
def handleAutocorrect (content : List Char) (w : List (List Char)) (sel : Sel)
    (key : List Char) (addSpace : Bool) : ACResult :=
  if content = [] then ⟨false, w, none⟩
  else
    match resolveNode w sel with
    | none => ⟨false, w, none⟩
    | some nIdx =>
      let fullText := w.join
      let pos := getTextPosition w nIdx sel.offset
      let start := getPreviousSpace fullText pos
      let stop := getNextSpace content pos
      let willAddSpace := addSpace && decide (stop < content.length)
      let enteredWord := jsSlice fullText start pos
      let targetWord := jsSlice content start stop
      if enteredWord = targetWord then ⟨false, w, none⟩
      else if start < pos ∧ (key = [' '] ∨ pos = stop) then
        match findSpliceNodeAux w start 0 0 with
        | none => ⟨true, w, none⟩
        | some (m, cum) =>
          let old := w.getD m []
          let newNode := old.take (start - cum) ++ targetWord
              ++ (if willAddSpace then [' '] else [])
              ++ jsSliceFrom old ((stop : Int) - (cum : Int))
          let newPos := start - cum + targetWord.length
              + (if willAddSpace then 1 else 0)
          ⟨true, w.set m newNode, some (m, min newPos newNode.length)⟩
      else ⟨false, w, none⟩

/-- C3: with TargetText `"the quick fox"`, the surface holding the single text
node `"teh"` and the caret at offset 3, a space keydown with autocorrect
enabled rewrites the surface to `"the "` (target word plus one trailing
space), places the caret at offset 4 (immediately after that space) and
returns true, so the original space keystroke is suppressed. -/
theorem C3_autocorrect_scenario :
    handleAutocorrect ("the quick fox".toList) ["teh".toList] ⟨false, 0, 3⟩ [' '] true
      = ⟨true, ["the ".toList], some (0, 4)⟩ := by
  decide

theorem getNextSpace_le (t : List Char) (k : Nat) : getNextSpace t k ≤ t.length := by
  unfold getNextSpace
  by_cases ht : t = []
  · simp [ht]
  · rw [if_neg ht]
    cases hf : firstIdxFrom ' ' t k with
    | none => exact le_refl _
    | some i =>
      have hi : i ≤ t.length := by
        unfold firstIdxFrom at hf
        cases hidx : (t.drop k).findIdx? (fun d => d = ' ') with
        | none => rw [hidx] at hf; simp at hf
        | some j =>
          rw [hidx] at hf
          injection hf with hf
          have hj : j < (t.drop k).length :=
            (List.findIdx?_eq_some_iff_findIdx_eq.mp hidx).1
          rw [List.length_drop] at hj
          omega
      simpa using hi

/-- C9: when `handleAutocorrect` is called with `addSpace = true` and performs
a correction, the single trailing space is appended exactly when the target
word's end boundary (`getNextSpace content pos`, always at most the target's
length) lies strictly before the end of TargetText; when it equals the
target's length (the corrected word is the final word) no space is appended
and the caret lands directly after the corrected word. -/
theorem C9_trailing_space_condition
    (content : List Char) (w : List (List Char)) (sel : Sel) (key : List Char)
    (nIdx pos start stop m cum : Nat)
    (hres : resolveNode w sel = some nIdx)
    (hc : content ≠ [])
    (hpos : pos = getTextPosition w nIdx sel.offset)
    (hstart : start = getPreviousSpace w.join pos)
    (hstop : stop = getNextSpace content pos)
    (hdiff : jsSlice w.join start pos ≠ jsSlice content start stop)
    (hcond : start < pos ∧ (key = [' '] ∨ pos = stop))
    (hfind : findSpliceNodeAux w start 0 0 = some (m, cum)) :
    stop ≤ content.length ∧
    (stop < content.length →
      handleAutocorrect content w sel key true =
        ⟨true,
         w.set m ((w.getD m []).take (start - cum) ++ jsSlice content start stop
           ++ [' '] ++ jsSliceFrom (w.getD m []) ((stop : Int) - (cum : Int))),
         some (m, min (start - cum + (jsSlice content start stop).length + 1)
           ((w.getD m []).take (start - cum) ++ jsSlice content start stop
             ++ [' '] ++ jsSliceFrom (w.getD m []) ((stop : Int) - (cum : Int))).length)⟩) ∧
    (stop = content.length →
      handleAutocorrect content w sel key true =
        ⟨true,
         w.set m ((w.getD m []).take (start - cum) ++ jsSlice content start stop
           ++ jsSliceFrom (w.getD m []) ((stop : Int) - (cum : Int))),
         some (m, min (start - cum + (jsSlice content start stop).length)
           ((w.getD m []).take (start - cum) ++ jsSlice content start stop
             ++ jsSliceFrom (w.getD m []) ((stop : Int) - (cum : Int))).length)⟩) := by
  subst hpos
  subst hstart
  subst hstop
  refine ⟨getNextSpace_le content _, ?_, ?_⟩
  · intro hlt
    unfold handleAutocorrect
    rw [if_neg hc, hres]
    simp only [if_neg hdiff, if_pos hcond, hfind]
    have hdec : decide (getNextSpace content (getTextPosition w nIdx sel.offset)
        < content.length) = true := decide_eq_true hlt
    simp [hdec]
  · intro heq
    unfold handleAutocorrect
    rw [if_neg hc, hres]
    simp only [if_neg hdiff, if_pos hcond, hfind]
    have hdec : decide (getNextSpace content (getTextPosition w nIdx sel.offset)
        < content.length) = false := by
      rw [decide_eq_false_iff_not]
      omega
    simp [hdec]

theorem C9_witness :
    handleAutocorrect ("ab cd".toList) ["ab cx".toList] ⟨false, 0, 5⟩ ['x'] true
      = ⟨true, ["ab cd".toList], some (0, 5)⟩ := by
  have h := (C9_trailing_space_condition ("ab cd".toList) ["ab cx".toList]
      ⟨false, 0, 5⟩ ['x'] 0 5 3 5 0 0 (by decide) (by decide) (by decide)
      (by decide) (by decide) (by decide) (by decide) (by decide)).2.2 (by decide)
  exact h.trans (by decide)

/-- `text.split(/(\s+)/)` (utils, line 66 and line 73): split on runs of
whitespace keeping the whitespace runs as tokens.  The result alternates
word tokens (empty only at the ends) and non-empty whitespace-run tokens,
starting and ending with a word token. -/
def splitWS : List Char → List (List Char)
  | [] => [[]]
  | c :: rest =>
    if isWS c then
      match splitWS rest with
      | [] => [[], [c], []]
      | [[]] => [[], [c], []]
      | [] :: sep :: ts2 => [] :: (c :: sep) :: ts2
      | (d :: t) :: ts => [] :: [c] :: (d :: t) :: ts
    else
      match splitWS rest with
      | [] => [[c]]
      | t :: ts => (c :: t) :: ts

theorem splitWS_ne_nil : ∀ l : List Char, splitWS l ≠ [] := by
  intro l
  cases l with
  | nil => simp [splitWS]
  | cons c rest =>
    rw [splitWS]
    by_cases hws : isWS c
    · rw [if_pos hws]
      cases hr : splitWS rest with
      | nil => simp
      | cons t ts =>
        cases t with
        | nil => cases ts <;> simp
        | cons d t' => simp
    · rw [if_neg hws]
      cases hr : splitWS rest <;> simp

theorem splitWS_join : ∀ l : List Char, (splitWS l).join = l := by
  intro l
  induction l with
  | nil => rfl
  | cons c rest ih =>
    rw [splitWS]
    by_cases hws : isWS c
    · rw [if_pos hws]
      cases hr : splitWS rest with
      | nil => exact absurd hr (splitWS_ne_nil rest)
      | cons t ts =>
        rw [hr] at ih
        cases t with
        | nil =>
          cases ts with
          | nil =>
            simp at ih
            simp [ih]
          | cons sep ts2 =>
            simp at ih
            simp [ih]
        | cons d t' =>
          simp at ih
          simp [ih]
    · rw [if_neg hws]
      cases hr : splitWS rest with
      | nil => exact absurd hr (splitWS_ne_nil rest)
      | cons t ts =>
        rw [hr] at ih
        simp at ih
        simp [ih]

/-- Summation loop of `getWordStartPosition` (utils, lines 77-79): add the
lengths of the first `offset` split tokens.  (An offset beyond the token count
cannot arise from a rendered word element, whose `data-offset` indexes the
same split.) -/
def gwsLoop : Nat → List (List Char) → Nat
  | 0, _ => 0
  | _ + 1, [] => 0
  | k + 1, wrd :: rest => wrd.length + gwsLoop k rest

/-- `getWordStartPosition(text, wordElement)` (utils, lines 72-82), with the
element represented by its `data-offset` value. -/
def getWordStartPosition (text : List Char) (offset : Nat) : Nat :=
  gwsLoop offset (splitWS text)

/-- A split token is rendered as a clickable word iff it contains a
non-whitespace character (`part.trim().length === 0` test of
`wrapWordsInSpans`, utils, lines 65-70, negated). -/
def isWordToken (tok : List Char) : Bool := tok.any (fun c => !isWS c)

/-- The `data-offset` values assigned by `wrapWordsInSpans` to rendered word
elements, in rendering order: the indices of the word tokens among the split
tokens. -/
def wordIndices (text : List Char) : List Nat :=
  (List.range (splitWS text).length).filter
    (fun i => isWordToken ((splitWS text).getD i []))

/-- The word branch of `onClick` (useEditorEvents.ts lines 16-34): the surface
content is replaced by the target's prefix up to the clicked word's start
position and the caret is collapsed to the end of that prefix. -/
def onClickWord (content : List Char) (off : Nat) : List Char × Nat :=
  let position := getWordStartPosition content off
  let textBefore := content.take position
  (textBefore, textBefore.length)

theorem gwsLoop_eq_sum_take :
    ∀ (i : Nat) (toks : List (List Char)), i ≤ toks.length →
      gwsLoop i toks = ((toks.take i).join).length := by
  intro i
  induction i with
  | zero => intro toks _; simp [gwsLoop]
  | succ k ih =>
    intro toks h
    match toks with
    | [] => simp at h
    | t :: ts =>
      rw [gwsLoop]
      rw [ih ts (by simpa using Nat.le_of_succ_le_succ h)]
      simp [List.join]

/-- C8: splitting the target on whitespace runs with separators preserved
loses no characters (the tokens concatenate back to the target); for a word
element carrying split-token index `i`, `getWordStartPosition` returns the
total length of the first `i` tokens, which is exactly the start offset of
token `i` (the target decomposes there); and clicking the rendered 3rd word
of `"one two three four"` (token index 4) truncates the surface to
`"one two "` with the caret at its end (offset 8). -/
theorem C8_word_segmentation :
    (∀ t : List Char, (splitWS t).join = t) ∧
    (∀ (t : List Char) (i : Nat), i ≤ (splitWS t).length →
      getWordStartPosition t i = (((splitWS t).take i).join).length ∧
      ((splitWS t).take i).join ++ ((splitWS t).drop i).join = t) ∧
    wordIndices ("one two three four".toList) = [0, 2, 4, 6] ∧
    onClickWord ("one two three four".toList) 4 = ("one two ".toList, 8) := by
  refine ⟨splitWS_join, ?_, by decide, by decide⟩
  intro t i h
  constructor
  · exact gwsLoop_eq_sum_take i (splitWS t) h
  · rw [← List.join_append, List.take_append_drop]
    exact splitWS_join t

theorem C8_witness :
    getWordStartPosition ("one two three four".toList) 4
        = (((splitWS ("one two three four".toList)).take 4).join).length ∧
      ((splitWS ("one two three four".toList)).take 4).join
          ++ ((splitWS ("one two three four".toList)).drop 4).join
        = "one two three four".toList :=
  C8_word_segmentation.2.1 ("one two three four".toList) 4 (by decide)

/-- `contentToCopy.split('\n')` (utils, line 5): split on newline, JavaScript
semantics (separators dropped, empty segments kept). -/
def splitNL : List Char → List (List Char)
  | [] => [[]]
  | c :: rest =>
    if c = '\n' then [] :: splitNL rest
    else
      match splitNL rest with
      | [] => [[c]]
      | t :: ts => (c :: t) :: ts

/-- Loop of `getCurrentLineIndex` (utils, lines 17-30): walk the writer's
children counting the sibling position, subtracting one for every child that
renders exactly `"\n"` and directly follows another such child; returns that
difference when the addressed child is reached, 0 when the child is never
found. -/
def gcliLoop : List (List Char) → Nat → Int → Int → Option (List Char) → Int
  | [], _, _, _, _ => 0
  | child :: rest, i, lineIdx, off, lastChild =>
    let off2 := if child = ['\n'] ∧ lastChild = some ['\n'] then off + 1 else off
    if i = 0 then lineIdx - off2
    else gcliLoop rest (i - 1) (lineIdx + 1) off2 (some child)

/-- `getCurrentLineIndex(node)` (utils, lines 10-33) for a node that is the
`i`-th child of the writer (the node's parent). -/
def getCurrentLineIndex (w : List (List Char)) (i : Nat) : Int :=
  gcliLoop w i 0 0 none

/-- `getCurrentLine(contentToCopy, node)` (utils, lines 3-8).  `node` is
either a child of the writer (`some i`) or the writer element itself (`none`,
the `writer.lastChild || writer` fallback of the caller); in the latter case
the sibling-position computation runs over the writer's parent, which lies
outside the modelled subtree, so the resulting line index is an input
(`editorLineIdx`).  A negative or out-of-range index yields `''`
(`lines[lineIndex] || ''`). -/
def getCurrentLine (content : List Char) (w : List (List Char)) (node : Option Nat)
    (editorLineIdx : Int) : List Char :=
  if content = [] then []
  else
    let lines := splitNL content
    let lineIndex : Int :=
      match node with
      | some i => getCurrentLineIndex w i
      | none => editorLineIdx
    if lineIndex < 0 then [] else lines.getD lineIndex.toNat []

def isAlnumChar (c : Char) : Bool :=
  (decide ('a' ≤ c) && decide (c ≤ 'z')) || (decide ('A' ≤ c) && decide (c ≤ 'Z'))
    || (decide ('0' ≤ c) && decide (c ≤ '9'))

/-- `NotAlphanumericRegex.test(s)` for `/[^a-z0-9]/i` (utils, line 1): true
iff some character of `s` is not ASCII alphanumeric. -/
def notAlphanumericTest (s : List Char) : Bool := s.any (fun c => !(isAlnumChar c))

/-- `range.startContainer === writer ? (writer.lastChild?.textContent?.length || 0)
: range.startOffset` (useEditorEvents.ts lines 249-251). -/
def ipIndex (w : List (List Char)) (sel : Sel) : Nat :=
  if sel.container then
    match w.getLast? with
    | some t => t.length
    | none => 0
  else sel.offset

/-- Result of `handleIgnorePunctuation`: the returned boolean, the (unchanged)
TargetText, the writer's children afterwards, and the new caret when one was
set (`none` in the node slot of the caret = the writer element itself). -/
structure IPResult where
  handled : Bool
  content : List Char
  nodes : List (List Char)
  caret : Option (Option Nat × Nat)
deriving DecidableEq

/-- `handleIgnorePunctuation(e, contentToCopy, writer)` (useEditorEvents.ts
lines 239-274).  The addressed node is `writer.lastChild || writer`: `none`
(the writer element) only when the writer has no children, in which case
setting `textContent` replaces all children with one text node. -/
def handleIgnorePunctuation (content : List Char) (w : List (List Char)) (sel : Sel)
    (key : List Char) (editorLineIdx : Int) : IPResult :=
  let noop : IPResult := ⟨false, content, w, none⟩
  if content = [] then noop
  else if notAlphanumericTest key = false then noop
  else if key = [' '] then noop
  else
    let node := resolveNode w sel
    let index := ipIndex w sel
    let line := getCurrentLine content w node editorLineIdx
    if line = [] then noop
    else
      match line.get? index with
      | none => noop
      | some letter =>
        if notAlphanumericTest [letter] = false then noop
        else if letter = '\n' then noop
        else
          let oldText := match node with
            | some i => w.getD i []
            | none => w.join
          let newText := oldText.take index ++ letter :: oldText.drop index
          let nodes2 := match node with
            | some i => w.set i newText
            | none => [newText]
          ⟨true, content, nodes2, some (node, min (index + 1) newText.length)⟩

/-- C10: whenever `handleIgnorePunctuation` reports handled and the selection
addresses an existing child text node, the only state change is the insertion
of the single expected non-alphanumeric, non-newline character read from the
current target line at the caret index: that node's content becomes its old
text up to the index, the inserted character, then the rest (so its length
grows by exactly one), the caret moves to just after the inserted character,
and the TargetText is untouched. -/
theorem C10_punctuation_insert_frame
    (content : List Char) (w : List (List Char)) (sel : Sel) (key : List Char)
    (editorLineIdx : Int) (i : Nat)
    (hres : resolveNode w sel = some i)
    (hi : i < w.length)
    (hhandled : (handleIgnorePunctuation content w sel key editorLineIdx).handled = true) :
    ∃ letter,
      (getCurrentLine content w (some i) editorLineIdx)[ipIndex w sel]? = some letter ∧
      isAlnumChar letter = false ∧
      letter ≠ '\n' ∧
      handleIgnorePunctuation content w sel key editorLineIdx =
        ⟨true, content,
         w.set i ((w.getD i []).take (ipIndex w sel)
           ++ letter :: (w.getD i []).drop (ipIndex w sel)),
         some (some i, ((w.getD i []).take (ipIndex w sel)).length + 1)⟩ ∧
      ((w.set i ((w.getD i []).take (ipIndex w sel)
          ++ letter :: (w.getD i []).drop (ipIndex w sel))).getD i []).length
        = (w.getD i []).length + 1 := by
  by_cases h1 : content = []
  · simp [handleIgnorePunctuation, h1] at hhandled
  by_cases h2 : notAlphanumericTest key = false
  · simp [handleIgnorePunctuation, h1, h2] at hhandled
  by_cases h3 : key = [' ']
  · simp [handleIgnorePunctuation, h1, h2, h3] at hhandled
  by_cases h4 : getCurrentLine content w (some i) editorLineIdx = []
  · rw [← hres] at h4
    simp [handleIgnorePunctuation, h1, h2, h3, h4] at hhandled
  cases hlet : (getCurrentLine content w (some i) editorLineIdx)[ipIndex w sel]? with
  | none =>
    rw [← hres] at h4 hlet
    simp [handleIgnorePunctuation, h1, h2, h3, h4, hlet] at hhandled
  | some letter =>
    by_cases h5 : notAlphanumericTest [letter] = false
    · rw [← hres] at h4 hlet
      simp [handleIgnorePunctuation, h1, h2, h3, h4, hlet, h5] at hhandled
    by_cases h6 : letter = '\n'
    · rw [← hres] at h4 hlet
      simp [handleIgnorePunctuation, h1, h2, h3, h4, hlet, h5, h6] at hhandled
    have halnum : isAlnumChar letter = false := by
      simp [notAlphanumericTest] at h5
      simpa using h5
    have hlen : ((w.getD i []).take (ipIndex w sel)
        ++ letter :: (w.getD i []).drop (ipIndex w sel)).length
          = (w.getD i []).length + 1 := by
      simp only [List.length_append, List.length_cons, List.length_take, List.length_drop]
      omega
    refine ⟨letter, rfl, halnum, h6, ?_, ?_⟩
    · simp only [handleIgnorePunctuation, if_neg h1, if_neg h2, if_neg h3, hres,
        if_neg h4, List.get?_eq_getElem?, hlet, if_neg h5, if_neg h6]
      have hmin : min (ipIndex w sel + 1)
          ((w[i]?.getD []).take (ipIndex w sel)
            ++ letter :: (w[i]?.getD []).drop (ipIndex w sel)).length
          = ((w[i]?.getD []).take (ipIndex w sel)).length + 1 := by
        simp only [List.length_append, List.length_cons, List.length_take,
          List.length_drop]
        omega
      simp only [List.getD_eq_getElem?_getD]
      rw [← hmin]
    · have hset : ((w.set i ((w.getD i []).take (ipIndex w sel)
          ++ letter :: (w.getD i []).drop (ipIndex w sel))).getD i [])
            = (w.getD i []).take (ipIndex w sel)
              ++ letter :: (w.getD i []).drop (ipIndex w sel) := by
        rw [List.getD_eq_getElem?_getD, List.getElem?_set_eq hi]
        rfl
      rw [hset, hlen]

theorem C10_witness :
    ∃ letter,
      (getCurrentLine ("a,b".toList) ["a".toList] (some 0)
          0)[ipIndex ["a".toList] ⟨false, 0, 1⟩]? = some letter ∧
      isAlnumChar letter = false ∧
      letter ≠ '\n' ∧
      handleIgnorePunctuation ("a,b".toList) ["a".toList] ⟨false, 0, 1⟩ (".".toList) 0 =
        ⟨true, "a,b".toList,
         ["a".toList].set 0 ((["a".toList].getD 0 []).take (ipIndex ["a".toList] ⟨false, 0, 1⟩)
           ++ letter :: (["a".toList].getD 0 []).drop (ipIndex ["a".toList] ⟨false, 0, 1⟩)),
         some (some 0,
           ((["a".toList].getD 0 []).take (ipIndex ["a".toList] ⟨false, 0, 1⟩)).length + 1)⟩ ∧
      ((["a".toList].set 0 ((["a".toList].getD 0 []).take (ipIndex ["a".toList] ⟨false, 0, 1⟩)
          ++ letter :: (["a".toList].getD 0 []).drop
            (ipIndex ["a".toList] ⟨false, 0, 1⟩))).getD 0 []).length
        = (["a".toList].getD 0 []).length + 1 :=
  C10_punctuation_insert_frame ("a,b".toList) ["a".toList] ⟨false, 0, 1⟩ (".".toList) 0 0
    (by decide) (by decide) (by decide)

/-- No two adjacent spaces. -/
def noDbl (a b : Char) : Prop := ¬(a = ' ' ∧ b = ' ')

theorem collapseSpaces_head : ∀ l : List Char, (collapseSpaces l).head? = l.head? := by
  intro l
  induction l with
  | nil => rfl
  | cons c rest ih =>
    rw [collapseSpaces]
    by_cases hg : c = ' ' ∧ rest.head? = some ' '
    · rw [if_pos hg, ih, hg.2, hg.1]
      rfl
    · rw [if_neg hg]
      rfl

theorem collapseNewlines_head : ∀ l : List Char, (collapseNewlines l).head? = l.head? := by
  intro l
  induction l with
  | nil => rfl
  | cons c rest ih =>
    rw [collapseNewlines]
    by_cases hc : c = '\n'
    · rw [if_pos hc]
      by_cases hh : rest.head? = some '\n'
      · rw [if_pos hh, ih, hh, hc]
        rfl
      · rw [if_neg hh]
        rw [hc]
        rfl
    · rw [if_neg hc]
      rfl

theorem chain'_collapseSpaces : ∀ l : List Char, List.Chain' noDbl (collapseSpaces l) := by
  intro l
  induction l with
  | nil => exact List.chain'_nil
  | cons c rest ih =>
    rw [collapseSpaces]
    by_cases hg : c = ' ' ∧ rest.head? = some ' '
    · rw [if_pos hg]
      exact ih
    · rw [if_neg hg]
      rw [List.chain'_cons']
      refine ⟨?_, ih⟩
      intro y hy
      rw [collapseSpaces_head rest] at hy
      intro hcy
      apply hg
      refine ⟨hcy.1, ?_⟩
      rw [← hcy.2]
      exact Option.mem_def.mp hy

theorem chain'_dropWhile {R : Char → Char → Prop} (p : Char → Bool) :
    ∀ l : List Char, List.Chain' R l → List.Chain' R (l.dropWhile p) := by
  intro l
  induction l with
  | nil => intro _; exact List.chain'_nil
  | cons c rest ih =>
    intro h
    rw [List.dropWhile_cons]
    by_cases hp : p c = true
    · rw [if_pos hp]
      exact ih (List.chain'_cons'.mp h).2
    · rw [if_neg hp]
      exact h

theorem trimRight_head : ∀ l : List Char, trimRight l = [] ∨ (trimRight l).head? = l.head? := by
  intro l
  cases l with
  | nil => left; rfl
  | cons c rest =>
    rw [trimRight]
    by_cases hg : trimRight rest = [] ∧ isWS c = true
    · left
      simp [hg]
    · right
      simp only [if_neg hg]
      rfl

theorem chain'_trimRight {R : Char → Char → Prop} :
    ∀ l : List Char, List.Chain' R l → List.Chain' R (trimRight l) := by
  intro l
  induction l with
  | nil => intro _; exact List.chain'_nil
  | cons c rest ih =>
    intro h
    rw [trimRight]
    by_cases hg : trimRight rest = [] ∧ isWS c = true
    · simp [hg]
    · simp only [if_neg hg]
      rw [List.chain'_cons']
      refine ⟨?_, ih (List.chain'_cons'.mp h).2⟩
      intro y hy
      rcases trimRight_head rest with he | hh
      · rw [he] at hy
        simp at hy
      · rw [hh] at hy
        exact (List.chain'_cons'.mp h).1 y hy

theorem chain'_collapseNewlines :
    ∀ l : List Char, List.Chain' noDbl l → List.Chain' noDbl (collapseNewlines l) := by
  intro l
  induction l with
  | nil => intro _; exact List.chain'_nil
  | cons c rest ih =>
    intro h
    rw [collapseNewlines]
    by_cases hc : c = '\n'
    · rw [if_pos hc]
      by_cases hh : rest.head? = some '\n'
      · rw [if_pos hh]
        exact ih (List.chain'_cons'.mp h).2
      · rw [if_neg hh]
        rw [List.chain'_cons']
        refine ⟨?_, ?_⟩
        · intro y _
          intro hcy
          exact absurd hcy.1 (by decide)
        · rw [List.chain'_cons']
          refine ⟨?_, ih (List.chain'_cons'.mp h).2⟩
          intro y _
          intro hcy
          exact absurd hcy.1 (by decide)
    · rw [if_neg hc]
      rw [List.chain'_cons']
      refine ⟨?_, ih (List.chain'_cons'.mp h).2⟩
      intro y hy
      rw [collapseNewlines_head rest] at hy
      exact (List.chain'_cons'.mp h).1 y hy

theorem collapseSpaces_eq_self :
    ∀ l : List Char, List.Chain' noDbl l → collapseSpaces l = l := by
  intro l
  induction l with
  | nil => intro _; rfl
  | cons c rest ih =>
    intro h
    rw [collapseSpaces]
    have hg : ¬(c = ' ' ∧ rest.head? = some ' ') := by
      intro hg
      have := (List.chain'_cons'.mp h).1 ' ' hg.2
      exact this ⟨hg.1, rfl⟩
    rw [if_neg hg, ih (List.chain'_cons'.mp h).2]

theorem mem_collapseSpaces : ∀ (l : List Char) (c : Char), c ∈ collapseSpaces l → c ∈ l := by
  intro l
  induction l with
  | nil => intro c h; simpa [collapseSpaces] using h
  | cons a rest ih =>
    intro c h
    rw [collapseSpaces] at h
    by_cases hg : a = ' ' ∧ rest.head? = some ' '
    · rw [if_pos hg] at h
      exact List.mem_cons_of_mem a (ih c h)
    · rw [if_neg hg] at h
      rcases List.mem_cons.mp h with h | h
      · exact h ▸ List.mem_cons_self a rest
      · exact List.mem_cons_of_mem a (ih c h)

theorem mem_collapseNewlines :
    ∀ (l : List Char) (c : Char), c ∈ collapseNewlines l → c ∈ l ∨ c = '\n' := by
  intro l
  induction l with
  | nil => intro c h; simp [collapseNewlines] at h
  | cons a rest ih =>
    intro c h
    rw [collapseNewlines] at h
    by_cases ha : a = '\n'
    · rw [if_pos ha] at h
      by_cases hh : rest.head? = some '\n'
      · rw [if_pos hh] at h
        rcases ih c h with h | h
        · exact Or.inl (List.mem_cons_of_mem a h)
        · exact Or.inr h
      · rw [if_neg hh] at h
        rcases List.mem_cons.mp h with h | h
        · exact Or.inr h
        · rcases List.mem_cons.mp h with h | h
          · exact Or.inr h
          · rcases ih c h with h | h
            · exact Or.inl (List.mem_cons_of_mem a h)
            · exact Or.inr h
    · rw [if_neg ha] at h
      rcases List.mem_cons.mp h with h | h
      · rw [h]
        exact Or.inl (List.mem_cons_self a rest)
      · rcases ih c h with h | h
        · exact Or.inl (List.mem_cons_of_mem a h)
        · exact Or.inr h

theorem trimRight_sublist : ∀ l : List Char, List.Sublist (trimRight l) l := by
  intro l
  induction l with
  | nil => exact List.Sublist.refl []
  | cons c rest ih =>
    rw [trimRight]
    by_cases hg : trimRight rest = [] ∧ isWS c = true
    · simp [hg]
    · simp only [if_neg hg]
      exact List.Sublist.cons₂ c ih

/-- Checker for "every maximal newline run has length exactly two". -/
def nlRunsTwo : List Char → Bool
  | [] => true
  | [c] => !(decide (c = '\n'))
  | c :: d :: rest2 =>
    if c = '\n' then
      if d = '\n' then (!(decide (rest2.head? = some '\n'))) && nlRunsTwo rest2
      else false
    else nlRunsTwo (d :: rest2)

theorem nlRunsTwo_collapseNewlines : ∀ l : List Char, nlRunsTwo (collapseNewlines l) = true := by
  intro l
  induction l with
  | nil => rfl
  | cons c rest ih =>
    rw [collapseNewlines]
    by_cases hc : c = '\n'
    · rw [if_pos hc]
      by_cases hh : rest.head? = some '\n'
      · rw [if_pos hh]
        exact ih
      · rw [if_neg hh]
        rw [nlRunsTwo, if_pos rfl, if_pos rfl]
        rw [collapseNewlines_head rest]
        simp [hh, ih]
    · rw [if_neg hc]
      cases hcr : collapseNewlines rest with
      | nil => simp [nlRunsTwo, hc]
      | cons d r2 =>
        rw [nlRunsTwo, if_neg hc]
        rw [← hcr]
        exact ih

theorem collapseNewlines_eq_self :
    ∀ (n : Nat) (l : List Char), l.length ≤ n → nlRunsTwo l = true → collapseNewlines l = l := by
  intro n
  induction n with
  | zero =>
    intro l hl _
    have : l = [] := List.length_eq_zero.mp (Nat.le_zero.mp hl)
    rw [this]
    rfl
  | succ m ih =>
    intro l hl h
    match l with
    | [] => rfl
    | c :: rest =>
      by_cases hc : c = '\n'
      · match rest with
        | [] =>
          rw [nlRunsTwo] at h
          rw [hc] at h
          simp at h
        | d :: rest2 =>
          rw [nlRunsTwo, if_pos hc] at h
          by_cases hd : d = '\n'
          · rw [if_pos hd] at h
            rw [Bool.and_eq_true] at h
            have hh2 : ¬ rest2.head? = some '\n' := by
              have := h.1
              simpa using this
            subst hc
            subst hd
            rw [collapseNewlines, if_pos rfl,
              if_pos (show ('\n' :: rest2).head? = some '\n' from rfl)]
            rw [collapseNewlines, if_pos rfl, if_neg hh2]
            rw [ih rest2 (by simp only [List.length_cons] at hl ⊢; omega) h.2]
          · rw [if_neg hd] at h
            simp at h
      · match rest with
        | [] =>
          rw [collapseNewlines, if_neg hc]
          rfl
        | d :: rest2 =>
          rw [nlRunsTwo, if_neg hc] at h
          rw [collapseNewlines, if_neg hc]
          rw [ih (d :: rest2) (by simp only [List.length_cons] at hl ⊢; omega) h]

theorem nlRunsTwo_dropWhile :
    ∀ (n : Nat) (l : List Char), l.length ≤ n → nlRunsTwo l = true →
      nlRunsTwo (l.dropWhile isWS) = true := by
  intro n
  induction n with
  | zero =>
    intro l hl h
    have : l = [] := List.length_eq_zero.mp (Nat.le_zero.mp hl)
    subst this
    exact h
  | succ m ih =>
    intro l hl h
    match l with
    | [] => exact h
    | c :: rest =>
      rw [List.dropWhile_cons]
      by_cases hw : isWS c = true
      · rw [if_pos hw]
        by_cases hc : c = '\n'
        · match rest with
          | [] =>
            rw [nlRunsTwo] at h
            rw [hc] at h
            simp at h
          | d :: rest2 =>
            rw [nlRunsTwo, if_pos hc] at h
            by_cases hd : d = '\n'
            · rw [if_pos hd] at h
              rw [Bool.and_eq_true] at h
              rw [List.dropWhile_cons, if_pos (by rw [hd]; decide)]
              exact ih rest2 (by simp only [List.length_cons] at hl ⊢; omega) h.2
            · rw [if_neg hd] at h
              simp at h
        · match rest with
          | [] => rfl
          | d :: rest2 =>
            rw [nlRunsTwo, if_neg hc] at h
            exact ih (d :: rest2) (by simp only [List.length_cons] at hl ⊢; omega) h
      · rw [if_neg hw]
        exact h

theorem nlRunsTwo_trimRight :
    ∀ (n : Nat) (l : List Char), l.length ≤ n → nlRunsTwo l = true →
      nlRunsTwo (trimRight l) = true := by
  intro n
  induction n with
  | zero =>
    intro l hl h
    have : l = [] := List.length_eq_zero.mp (Nat.le_zero.mp hl)
    subst this
    exact h
  | succ m ih =>
    intro l hl h
    match l with
    | [] => exact h
    | c :: rest =>
      rw [trimRight]
      by_cases hg : trimRight rest = [] ∧ isWS c = true
      · simp [hg, nlRunsTwo]
      · simp only [if_neg hg]
        by_cases hc : c = '\n'
        · match rest with
          | [] =>
            rw [nlRunsTwo] at h
            rw [hc] at h
            simp at h
          | d :: rest2 =>
            rw [nlRunsTwo, if_pos hc] at h
            by_cases hd : d = '\n'
            · rw [if_pos hd] at h
              rw [Bool.and_eq_true] at h
              have hh2 : ¬ rest2.head? = some '\n' := by
                have := h.1
                simpa using this
              have ht2 : nlRunsTwo (trimRight rest2) = true :=
                ih rest2 (by simp only [List.length_cons] at hl ⊢; omega) h.2
              by_cases he2 : trimRight rest2 = []
              · exfalso
                apply hg
                refine ⟨?_, by rw [hc]; decide⟩
                rw [trimRight]
                rw [if_pos ⟨he2, by rw [hd]; decide⟩]
              · have hrw : trimRight (d :: rest2) = d :: trimRight rest2 := by
                  rw [trimRight]
                  rw [if_neg (by intro hx; exact he2 hx.1)]
                rw [hrw]
                rw [nlRunsTwo, if_pos hc, if_pos hd]
                rw [Bool.and_eq_true]
                refine ⟨?_, ht2⟩
                rcases trimRight_head rest2 with hx | hx
                · exact absurd hx he2
                · rw [hx]
                  simpa using hh2
            · rw [if_neg hd] at h
              simp at h
        · match rest with
          | [] =>
            have : trimRight ([] : List Char) = [] := rfl
            rw [this]
            simp [nlRunsTwo, hc]
          | d :: rest2 =>
            rw [nlRunsTwo, if_neg hc] at h
            have ht := ih (d :: rest2) (by simp only [List.length_cons] at hl ⊢; omega) h
            cases htr : trimRight (d :: rest2) with
            | nil => simp [nlRunsTwo, hc]
            | cons e r2 =>
              rw [htr] at ht
              rw [nlRunsTwo, if_neg hc]
              exact ht

theorem head?_dropWhile_false (p : Char → Bool) :
    ∀ (l : List Char) (c : Char), (l.dropWhile p).head? = some c → p c = false := by
  intro l
  induction l with
  | nil => intro c h; simp at h
  | cons a rest ih =>
    intro c h
    rw [List.dropWhile_cons] at h
    by_cases hp : p a = true
    · rw [if_pos hp] at h
      exact ih c h
    · rw [if_neg hp] at h
      simp only [List.head?_cons, Option.some.injEq] at h
      subst h
      simpa using hp

theorem trimRight_getLast :
    ∀ (l : List Char) (c : Char), (trimRight l).getLast? = some c → isWS c = false := by
  intro l
  induction l with
  | nil => intro c h; simp [trimRight] at h
  | cons a rest ih =>
    intro c h
    rw [trimRight] at h
    by_cases hg : trimRight rest = [] ∧ isWS a = true
    · rw [if_pos hg] at h
      simp at h
    · rw [if_neg hg] at h
      cases hr : trimRight rest with
      | nil =>
        rw [hr] at h
        simp only [List.getLast?_singleton, Option.some.injEq] at h
        have hna : ¬ isWS a = true := by
          intro hx
          exact hg ⟨hr, hx⟩
        rw [← h]
        simpa using hna
      | cons d r2 =>
        rw [hr] at h
        rw [List.getLast?_cons_cons] at h
        rw [← hr] at h
        exact ih c h

theorem trimLeft_eq_self :
    ∀ l : List Char, (∀ c, l.head? = some c → isWS c = false) → trimLeft l = l := by
  intro l h
  cases l with
  | nil => rfl
  | cons a rest =>
    unfold trimLeft
    rw [List.dropWhile_cons]
    rw [if_neg (by simp [h a rfl])]

theorem trimRight_eq_self :
    ∀ l : List Char, (∀ c, l.getLast? = some c → isWS c = false) → trimRight l = l := by
  intro l
  induction l with
  | nil => intro _; rfl
  | cons a rest ih =>
    intro h
    rw [trimRight]
    cases rest with
    | nil =>
      rw [if_neg ?_]
      · rfl
      · intro hg
        have := h a (by simp)
        rw [this] at hg
        exact Bool.false_ne_true hg.2
    | cons d rest2 =>
      have hr : trimRight (d :: rest2) = d :: rest2 := by
        apply ih
        intro c hc
        apply h
        rw [List.getLast?_cons_cons]
        exact hc
      rw [hr]
      rw [if_neg (by intro hg; exact List.cons_ne_nil d rest2 hg.1)]

theorem stripTabs_eq_self (l : List Char) (h : '\t' ∉ l) : stripTabs l = l := by
  unfold stripTabs
  rw [List.filter_eq_self]
  intro a ha
  by_cases hx : a = '\t'
  · exact absurd (hx ▸ ha) h
  · simp [hx]

theorem stripCRs_eq_self (l : List Char) (h : '\r' ∉ l) : stripCRs l = l := by
  unfold stripCRs
  rw [List.filter_eq_self]
  intro a ha
  by_cases hx : a = '\r'
  · exact absurd (hx ▸ ha) h
  · simp [hx]

/-- C7 counterexample: the paste normalization is not idempotent.  For
`"a \t b"` the first pass collapses no spaces (the runs are broken by the
tab), then deletes the tab, leaving `"a  b"` with two adjacent spaces; the
second pass collapses them to one. -/
theorem C7_counterexample :
    normalizePaste (normalizePaste ("a \t b".toList)) ≠ normalizePaste ("a \t b".toList) := by
  decide

/-- C7 (amended): the paste normalization pipeline is idempotent on every
input containing no tab and no carriage-return character; for such inputs
`normalizePaste (normalizePaste s) = normalizePaste s`.  (Tabs and carriage
returns are deleted only after space runs are collapsed, so their removal can
create new space runs that only a second pass would collapse.) -/
theorem C7_normalize_idempotent_no_tab_cr
    (s : List Char) (ht : '\t' ∉ s) (hcr : '\r' ∉ s) :
    normalizePaste (normalizePaste s) = normalizePaste s := by
  have hxt : '\t' ∉ collapseSpaces s := fun hx => ht (mem_collapseSpaces s '\t' hx)
  have hxr : '\r' ∉ collapseSpaces s := fun hx => hcr (mem_collapseSpaces s '\r' hx)
  have hchainX : List.Chain' noDbl (collapseSpaces s) := chain'_collapseSpaces s
  have e1 : normalizePaste s
      = trimRight (trimLeft (collapseNewlines (collapseSpaces s))) := by
    unfold normalizePaste trim
    rw [stripTabs_eq_self _ hxt, stripCRs_eq_self _ hxr]
  generalize hX : collapseSpaces s = X at e1 hxt hxr hchainX
  generalize hR : trimRight (trimLeft (collapseNewlines X)) = R at e1
  have hmem : ∀ c, c ∈ R → c ∈ X ∨ c = '\n' := by
    intro c hc
    rw [← hR] at hc
    have h1 := (trimRight_sublist (trimLeft (collapseNewlines X))).mem hc
    have h2 : c ∈ collapseNewlines X := by
      unfold trimLeft at h1
      exact (List.dropWhile_sublist isWS).mem h1
    exact mem_collapseNewlines X c h2
  have hrt : '\t' ∉ R := by
    intro hc
    rcases hmem '\t' hc with h | h
    · exact hxt h
    · exact absurd h (by decide)
  have hrr : '\r' ∉ R := by
    intro hc
    rcases hmem '\r' hc with h | h
    · exact hxr h
    · exact absurd h (by decide)
  have hchain : List.Chain' noDbl R := by
    rw [← hR]
    apply chain'_trimRight
    unfold trimLeft
    apply chain'_dropWhile
    exact chain'_collapseNewlines X hchainX
  have hnl : nlRunsTwo R = true := by
    rw [← hR]
    apply nlRunsTwo_trimRight (trimLeft (collapseNewlines X)).length _ le_rfl
    unfold trimLeft
    apply nlRunsTwo_dropWhile (collapseNewlines X).length _ le_rfl
    exact nlRunsTwo_collapseNewlines X
  have hhead : ∀ c, R.head? = some c → isWS c = false := by
    intro c hc
    rw [← hR] at hc
    rcases trimRight_head (trimLeft (collapseNewlines X)) with he | hh
    · rw [he] at hc
      simp at hc
    · rw [hh] at hc
      unfold trimLeft at hc
      exact head?_dropWhile_false isWS (collapseNewlines X) c hc
  have hlast : ∀ c, R.getLast? = some c → isWS c = false := by
    intro c hc
    rw [← hR] at hc
    exact trimRight_getLast (trimLeft (collapseNewlines X)) c hc
  rw [e1]
  unfold normalizePaste trim
  rw [collapseSpaces_eq_self R hchain]
  rw [stripTabs_eq_self R hrt, stripCRs_eq_self R hrr]
  rw [collapseNewlines_eq_self R.length R le_rfl hnl]
  rw [trimLeft_eq_self R hhead]
  rw [trimRight_eq_self R hlast]

theorem C7_witness :
    normalizePaste (normalizePaste ("a  b\nc".toList)) = normalizePaste ("a  b\nc".toList) :=
  C7_normalize_idempotent_no_tab_cr ("a  b\nc".toList) (by decide) (by decide)
